import Mathlib

/-!
Verification of the pie-grep line-search utility (src/src/lib.rs).

Strings are modelled as `List Char`; the Rust `str` operations used by the
program are embedded as executable Lean functions:

* `str::lines` is `split_inclusive('\n')` followed by stripping a trailing
  `'\n'` and, when that newline was present, one trailing `'\r'`
  (the `LinesMap` of the Rust standard library); embedded as
  `PieGrep.linesOf`.
* `str::contains(query)` is a literal substring test, embedded as
  `PieGrep.containsStr`.
* `str::to_lowercase` is embedded characterwise via `Char.toLower`
  (the claims under study do not depend on the particular case folding,
  only on both operands being folded by the same function).

The process environment is modelled as a partial map `Env` from variable
names to values (`env::var v` fails exactly when the map returns `none`),
and the file system as a partial map `FileSystem` from file names to file
contents (`fs::read_to_string` fails exactly when the map returns an
error).  Standard output is modelled as the `List Char` accumulated by
`run`'s print loop.
-/

namespace PieGrep

/-- Characterwise lowercasing, modelling `str::to_lowercase`. -/
def toLowerStr (s : List Char) : List Char := s.map Char.toLower

/-- Prepend a character to the first chunk of a chunk list (creating the
chunk when the list is empty). -/
def consHead (c : Char) : List (List Char) → List (List Char)
  | [] => [[c]]
  | l :: ls => (c :: l) :: ls

/-- Naive split on the newline character: the sequence of maximal
newline-free segments of `s` (always nonempty; a trailing newline yields a
trailing empty segment).  This is the spec-side notion of "splitting on the
newline delimiter" against which the code's line iterator is compared. -/
def splitNl : List Char → List (List Char)
  | [] => [[]]
  | c :: t => if c = '\n' then [] :: splitNl t else consHead c (splitNl t)

/-- Model of Rust `str::split_inclusive('\n')`: chunks of the input, each
ending with the `'\n'` that terminated it (the final chunk may lack it);
the empty string yields no chunk. -/
def splitInclusiveNl : List Char → List (List Char)
  | [] => []
  | c :: t =>
    if c = '\n' then ['\n'] :: splitInclusiveNl t
    else consHead c (splitInclusiveNl t)

/-- Model of Rust `str::strip_suffix(c).unwrap_or(identity)`: remove one
trailing occurrence of `c` if present. -/
def stripSuffixChar (c : Char) (l : List Char) : List Char :=
  if l.getLast? = some c then l.dropLast else l

/-- Model of the `LinesMap` closure of Rust `str::lines`: strip one
trailing `'\n'`; when it was present, additionally strip one trailing
`'\r'`; otherwise return the chunk unchanged. -/
def stripLineEnding (l : List Char) : List Char :=
  if l.getLast? = some '\n' then stripSuffixChar '\r' l.dropLast else l

/-- Model of Rust `contents.lines()` as used at lib.rs:64 and lib.rs:77. -/
def linesOf (contents : List Char) : List (List Char) :=
  (splitInclusiveNl contents).map stripLineEnding

/-- Model of Rust `s.contains(query)` (lib.rs:65): `query` occurs as a
literal contiguous substring of `s`. -/
def containsStr : List Char → List Char → Bool
  | [], query => query.isEmpty
  | c :: t, query => query.isPrefixOf (c :: t) || containsStr t query

/-- Embedding of `search` (lib.rs:61-71): iterate over the lines of
`contents`, pushing each line that contains `query` onto the result. -/
def search (query contents : List Char) : List (List Char) :=
  (linesOf contents).foldl
    (fun results line =>
      if containsStr line query then results ++ [line] else results)
    []

/-- Embedding of `search_case_insensitive` (lib.rs:73-84): the query is
lowercased once, every line is lowercased for the test, and the original
line is pushed. -/
def search_case_insensitive (query contents : List Char) : List (List Char) :=
  (linesOf contents).foldl
    (fun results line =>
      if containsStr (toLowerStr line) (toLowerStr query) then
        results ++ [line]
      else results)
    []

/-- Embedding of the `Config` struct (lib.rs:6-10). -/
structure Config where
  query : List Char
  filename : List Char
  case_sensitive : Bool
deriving DecidableEq

/-- The process environment: a partial map from variable names to values.
`env::var v` succeeds exactly when the map returns `some`. -/
abbrev Env : Type := String → Option String

/-- Embedding of `Config::new` (lib.rs:13-28): fewer than three arguments
is an error; otherwise `query` is `args[1]`, `filename` is `args[2]`, and
`case_sensitive` holds exactly when `env::var("CASE_INSENSITIVE")` fails,
i.e. when the variable is unset. -/
def Config.new (env : Env) (args : List (List Char)) : Except String Config :=
  if args.length < 3 then Except.error "not enough arguments"
  else
    Except.ok
      { query := args.getD 1 []
        filename := args.getD 2 []
        case_sensitive := (env "CASE_INSENSITIVE").isNone }

/-- The file system: a partial map from file names to decoded contents.
`fs::read_to_string` fails (not found, permission, encoding) exactly when
the map returns an error carrying the cause description. -/
abbrev FileSystem : Type := List Char → Except String (List Char)

/-- The standard output produced by `run`'s print loop (lib.rs:48-50):
each line followed by one newline, in order. -/
def printLines (results : List (List Char)) : List Char :=
  results.foldl (fun out line => out ++ line ++ ['\n']) []

/-- Embedding of `run` (lib.rs:39-53): read the file (propagating a
failure before anything is printed), select the search variant by
`case_sensitive`, print each matched line.  The first component is the
text written to standard output, the second the returned `Result`. -/
def run (fs : FileSystem) (config : Config) :
    List Char × Except String Unit :=
  match fs config.filename with
  | Except.error e => ([], Except.error e)
  | Except.ok contents =>
    let results :=
      if config.case_sensitive then search config.query contents
      else search_case_insensitive config.query contents
    (printLines results, Except.ok ())

/-! ### The substring test -/

/-- Correctness of the substring test: `containsStr s q` holds exactly when
`q` is an infix of `s`. -/
theorem containsStr_iff (s q : List Char) : containsStr s q = true ↔ q <:+: s := by
  induction s with
  | nil =>
    simp [containsStr, List.isEmpty_iff]
  | cons c t ih =>
    simp only [containsStr, Bool.or_eq_true, List.infix_cons_iff, ih,
      List.isPrefixOf_iff_prefix]

/-- Boolean form of `containsStr_iff`. -/
theorem containsStr_eq_decide (s q : List Char) :
    containsStr s q = decide (q <:+: s) := by
  by_cases h : q <:+: s
  · simp [h, (containsStr_iff s q).mpr h]
  · rcases hb : containsStr s q with _ | _
    · simp [h]
    · exact absurd ((containsStr_iff s q).mp hb) h

/-! ### The push loop is a filter -/

/-- The accumulator loop of both search functions is a `filter`. -/
theorem foldl_push_eq_filter (p : List Char → Bool) :
    ∀ (L acc : List (List Char)),
      L.foldl (fun results line =>
        if p line then results ++ [line] else results) acc
        = acc ++ L.filter p := by
  intro L
  induction L with
  | nil => intro acc; simp
  | cons l L ih =>
    intro acc
    by_cases h : p l <;> simp [h, ih, List.filter_cons]

/-- The case-sensitive search is the filter of the lines by the
substring test. -/
theorem search_eq_filter (query contents : List Char) :
    search query contents
      = (linesOf contents).filter (fun line => containsStr line query) := by
  simpa using foldl_push_eq_filter (fun line => containsStr line query)
    (linesOf contents) []

/-- The case-insensitive search is the filter of the lines by the
lowercased substring test. -/
theorem search_case_insensitive_eq_filter (query contents : List Char) :
    search_case_insensitive query contents
      = (linesOf contents).filter
          (fun line => containsStr (toLowerStr line) (toLowerStr query)) := by
  simpa using foldl_push_eq_filter
    (fun line => containsStr (toLowerStr line) (toLowerStr query))
    (linesOf contents) []

/-! ### Structure of the line iterator -/

/-- The naive newline split is never empty. -/
theorem splitNl_ne_nil (c : List Char) : splitNl c ≠ [] := by
  cases c with
  | nil => simp [splitNl]
  | cons a t =>
    simp only [splitNl]
    by_cases ha : a = '\n'
    · simp [ha]
    · rw [if_neg ha]
      rcases hs : splitNl t with _ | ⟨l, ls⟩ <;> simp [consHead]

/-- Concatenating the inclusive chunks recovers the input. -/
theorem splitInclusiveNl_flatten (c : List Char) :
    (splitInclusiveNl c).flatten = c := by
  induction c with
  | nil => rfl
  | cons a t ih =>
    simp only [splitInclusiveNl]
    by_cases ha : a = '\n'
    · subst ha
      simp [ih]
    · rw [if_neg ha]
      rcases hs : splitInclusiveNl t with _ | ⟨l, ls⟩
      · have ht : t = [] := by rw [hs] at ih; simpa using ih.symm
        simp [consHead, ht]
      · rw [hs] at ih
        simp only [consHead, List.flatten_cons] at ih ⊢
        rw [List.cons_append, ih]

/-- Every inclusive chunk is nonempty. -/
theorem chunk_ne_nil (c : List Char) : ∀ m ∈ splitInclusiveNl c, m ≠ [] := by
  induction c with
  | nil => intro m hm; simp [splitInclusiveNl] at hm
  | cons a t ih =>
    intro m hm
    simp only [splitInclusiveNl] at hm
    by_cases ha : a = '\n'
    · rw [if_pos ha] at hm
      rcases List.mem_cons.mp hm with rfl | hm2
      · simp
      · exact ih m hm2
    · rw [if_neg ha] at hm
      rcases hs : splitInclusiveNl t with _ | ⟨l, ls⟩ <;>
        rw [hs] at hm <;> simp only [consHead] at hm
      · rcases List.mem_cons.mp hm with rfl | hm2
        · simp
        · simp at hm2
      · rcases List.mem_cons.mp hm with rfl | hm2
        · simp
        · exact ih m (by rw [hs]; exact List.mem_cons_of_mem l hm2)

/-- An inclusive chunk carries no newline before its final character. -/
theorem no_nl_in_chunk_dropLast (c : List Char) :
    ∀ m ∈ splitInclusiveNl c, '\n' ∉ m.dropLast := by
  induction c with
  | nil => intro m hm; simp [splitInclusiveNl] at hm
  | cons a t ih =>
    intro m hm
    simp only [splitInclusiveNl] at hm
    by_cases ha : a = '\n'
    · rw [if_pos ha] at hm
      rcases List.mem_cons.mp hm with rfl | hm2
      · simp
      · exact ih m hm2
    · rw [if_neg ha] at hm
      rcases hs : splitInclusiveNl t with _ | ⟨l, ls⟩ <;>
        rw [hs] at hm <;> simp only [consHead] at hm
      · rcases List.mem_cons.mp hm with rfl | hm2
        · simp
        · simp at hm2
      · rcases List.mem_cons.mp hm with rfl | hm2
        · have hl : l ∈ splitInclusiveNl t := by
            rw [hs]; exact List.mem_cons_self l ls
          have hlnil : l ≠ [] := chunk_ne_nil t l hl
          rw [List.dropLast_cons_of_ne_nil hlnil]
          intro hmem
          rcases List.mem_cons.mp hmem with he | hm3
          · exact ha he.symm
          · exact ih l hl hm3
        · exact ih m (by rw [hs]; exact List.mem_cons_of_mem l hm2)

/-- Stripping a suffix character yields a prefix of the input. -/
theorem stripSuffixChar_prefix_self (c : Char) (l : List Char) :
    stripSuffixChar c l <+: l := by
  unfold stripSuffixChar
  split
  · exact List.dropLast_prefix l
  · exact List.prefix_rfl

/-- Stripping the line ending yields a prefix of the chunk. -/
theorem stripLineEnding_prefix_self (l : List Char) : stripLineEnding l <+: l := by
  unfold stripLineEnding
  split
  · have hp := List.dropLast_prefix l
    exact (stripSuffixChar_prefix_self '\r' l.dropLast).trans hp
  · exact List.prefix_rfl

/-- Stripping the line ending of a newline-terminated chunk removes the
newline and then one carriage return. -/
theorem stripLineEnding_concat_nl (x : List Char) :
    stripLineEnding (x ++ ['\n']) = stripSuffixChar '\r' x := by
  simp [stripLineEnding, List.getLast?_concat, List.dropLast_concat]

/-- A chunk with no interior newline strips to a newline-free line. -/
theorem no_nl_stripLineEnding (m : List Char) (h : '\n' ∉ m.dropLast) :
    '\n' ∉ stripLineEnding m := by
  rcases List.eq_nil_or_concat m with rfl | ⟨y, b, rfl⟩
  · simp [stripLineEnding]
  · simp only [List.concat_eq_append] at h ⊢
    rw [List.dropLast_concat] at h
    by_cases hb : b = '\n'
    · subst hb
      rw [stripLineEnding_concat_nl]
      intro hmem
      exact h ((stripSuffixChar_prefix_self '\r' y).subset hmem)
    · have he : stripLineEnding (y ++ [b]) = y ++ [b] := by
        simp [stripLineEnding, List.getLast?_concat, hb]
      rw [he]
      simp only [List.mem_append, List.mem_singleton]
      rintro (hy | rfl)
      · exact h hy
      · exact hb rfl

/-- Every element of the line iterator is a newline-free infix of the
input. -/
theorem mem_linesOf (c line : List Char) (h : line ∈ linesOf c) :
    line <:+: c ∧ '\n' ∉ line := by
  rcases List.mem_map.mp h with ⟨m, hm, rfl⟩
  have hpre : stripLineEnding m <+: m := stripLineEnding_prefix_self m
  have hinf : m <:+: c := by
    have hj := List.infix_of_mem_flatten hm
    rwa [splitInclusiveNl_flatten] at hj
  exact ⟨hpre.isInfix.trans hinf, no_nl_stripLineEnding m (no_nl_in_chunk_dropLast c m hm)⟩

/-- The inclusive chunks of a newline-terminated string are the naive
newline split with the newline re-attached. -/
theorem splitInclusiveNl_append_nl (x : List Char) :
    splitInclusiveNl (x ++ ['\n'])
      = (splitNl x).map (fun l => l ++ ['\n']) := by
  induction x with
  | nil => rfl
  | cons a t ih =>
    by_cases ha : a = '\n'
    · subst ha
      simp only [List.cons_append, splitInclusiveNl, splitNl, if_pos rfl,
        List.map_cons, List.nil_append]
      exact congrArg (List.cons ['\n']) ih
    · simp only [List.cons_append, splitInclusiveNl, splitNl, if_neg ha,
        List.append_eq]
      rw [ih]
      rcases hs : splitNl t with _ | ⟨l, ls⟩
      · exact absurd hs (splitNl_ne_nil t)
      · simp [consHead, List.map_cons]

/-- On a newline-terminated string the line iterator is the naive newline
split with one trailing carriage return removed from each segment: a
trailing newline produces no empty final element. -/
theorem linesOf_append_nl (x : List Char) :
    linesOf (x ++ ['\n']) = (splitNl x).map (stripSuffixChar '\r') := by
  unfold linesOf
  rw [splitInclusiveNl_append_nl, List.map_map]
  have he : (stripLineEnding ∘ fun l => l ++ ['\n']) = stripSuffixChar '\r' :=
    funext fun l => by simp [Function.comp, stripLineEnding_concat_nl]
  rw [he]

/-- A leading newline yields an empty first line: internal empty lines are
preserved. -/
theorem linesOf_cons_nl (c : List Char) :
    linesOf ('\n' :: c) = [] :: linesOf c := by
  simp [linesOf, splitInclusiveNl, stripLineEnding, stripSuffixChar]

/-- The first chunk of a string starting with a newline-free segment
followed by a newline is that segment with its newline. -/
theorem splitInclusiveNl_append_cons_nl (x y : List Char) (hx : '\n' ∉ x) :
    splitInclusiveNl (x ++ '\n' :: y) = (x ++ ['\n']) :: splitInclusiveNl y := by
  induction x with
  | nil => simp [splitInclusiveNl]
  | cons a t ih =>
    have ha : a ≠ '\n' := fun h => hx (h ▸ List.mem_cons_self a t)
    have ht : '\n' ∉ t := fun h => hx (List.mem_cons_of_mem a h)
    simp only [List.cons_append, splitInclusiveNl, if_neg ha, List.append_eq]
    rw [ih ht]
    simp [consHead]

/-- The print loop writes each line followed by one newline. -/
theorem printLines_eq_append (L : List (List Char)) :
    ∀ acc : List Char,
      L.foldl (fun out line => out ++ line ++ ['\n']) acc
        = acc ++ (L.map (fun line => line ++ ['\n'])).flatten := by
  induction L with
  | nil => intro acc; simp
  | cons l L ih =>
    intro acc
    simp only [List.foldl_cons, List.map_cons, List.flatten_cons]
    rw [ih]
    simp [List.append_assoc]

/-- Closed form of the print loop. -/
theorem printLines_eq (L : List (List Char)) :
    printLines L = (L.map (fun line => line ++ ['\n'])).flatten := by
  have h := printLines_eq_append L []
  simpa [printLines] using h

/-! ### The claims -/

/-- C1: for every query and contents, `search` returns exactly those lines
of the contents (split on newline by the line iterator) that contain the
query as an exact, case-sensitive literal substring, in original line
order, with no duplicates beyond duplicate source lines: the result is
precisely the filter of the line sequence by the infix test. -/
theorem search_returns_exactly_matching_lines (query contents : List Char) :
    search query contents
      = (linesOf contents).filter (fun line => decide (query <:+: line)) := by
  rw [search_eq_filter]
  have he : (fun line => containsStr line query)
      = fun line => decide (query <:+: line) :=
    funext fun line => containsStr_eq_decide line query
  rw [he]

/-- C2: for every query and contents, `search_case_insensitive` returns
exactly those lines whose lowercased form contains the lowercased query as
a substring, in original order, and each returned element is the original
(non-lowercased) line text: the result is precisely the filter of the
original line sequence by the lowercased infix test. -/
theorem search_ci_returns_exactly_matching_lines (query contents : List Char) :
    search_case_insensitive query contents
      = (linesOf contents).filter
          (fun line => decide (toLowerStr query <:+: toLowerStr line)) := by
  rw [search_case_insensitive_eq_filter]
  have he : (fun line => containsStr (toLowerStr line) (toLowerStr query))
      = fun line => decide (toLowerStr query <:+: toLowerStr line) :=
    funext fun line => containsStr_eq_decide (toLowerStr line) (toLowerStr query)
  rw [he]

/-- C3: every element of the result of `search` or
`search_case_insensitive` is a line of the contents as produced by the
line iterator (a subsequence of it, hence in order); every such line is a
contiguous (infix) newline-free segment of the contents; a trailing
newline produces no empty final element (the lines of `contents ++ "\n"`
are exactly the naive newline-split segments of `contents`, each with one
trailing carriage return removed); and internal empty lines are preserved
as empty strings (a leading newline yields an empty first line). -/
theorem results_are_source_lines (query contents : List Char) :
    (search query contents).Sublist (linesOf contents)
    ∧ (search_case_insensitive query contents).Sublist (linesOf contents)
    ∧ (∀ line ∈ linesOf contents, line <:+: contents ∧ '\n' ∉ line)
    ∧ linesOf (contents ++ ['\n'])
        = (splitNl contents).map (stripSuffixChar '\r')
    ∧ linesOf ('\n' :: contents) = [] :: linesOf contents := by
  refine ⟨?_, ?_, ?_, linesOf_append_nl contents, linesOf_cons_nl contents⟩
  · rw [search_eq_filter]
    exact List.filter_sublist _
  · rw [search_case_insensitive_eq_filter]
    exact List.filter_sublist _
  · exact fun line h => mem_linesOf contents line h

/-- C4: for every environment, the `case_sensitive` field of a
successfully constructed configuration is true exactly when the
environment variable CASE_INSENSITIVE is unset; any set value, the empty
string included, makes it false. -/
theorem case_sensitive_iff_env_unset (env : Env) (args : List (List Char))
    (cfg : Config) (h : Config.new env args = Except.ok cfg) :
    cfg.case_sensitive = true ↔ env "CASE_INSENSITIVE" = none := by
  unfold Config.new at h
  split at h
  · simp at h
  · injection h with h2
    subst h2
    exact Option.isNone_iff_eq_none

/-- C4 witness: with an empty environment and three arguments the
constructed configuration is case-sensitive. -/
theorem case_sensitive_iff_env_unset_holds :
    (Config.mk ['q'] ['f'] true).case_sensitive = true
      ↔ (fun _ => (none : Option String)) "CASE_INSENSITIVE" = none :=
  case_sensitive_iff_env_unset (fun _ => none) [['p'], ['q'], ['f']]
    (Config.mk ['q'] ['f'] true) rfl

/-- C5: `Config.new` fails exactly when the argument list has fewer than
three entries, the failure is the missing-argument error and nothing else
(the function is pure, so no file input or output can occur), and with at
least three entries it succeeds with the first positional argument as the
query and the second as the filename. -/
theorem config_new_arg_check (env : Env) (args : List (List Char)) :
    ((∃ e, Config.new env args = Except.error e) ↔ args.length < 3)
    ∧ (args.length < 3 →
        Config.new env args = Except.error "not enough arguments")
    ∧ (∀ a b c rest, args = a :: b :: c :: rest →
        Config.new env args
          = Except.ok (Config.mk b c (env "CASE_INSENSITIVE").isNone)) := by
  unfold Config.new
  by_cases h : args.length < 3
  · rw [if_pos h]
    refine ⟨⟨fun _ => h, fun _ => ⟨"not enough arguments", rfl⟩⟩,
      fun _ => rfl, ?_⟩
    rintro a b c rest rfl
    exfalso
    simp only [List.length_cons] at h
    omega
  · rw [if_neg h]
    refine ⟨⟨?_, fun hlt => absurd hlt h⟩, fun hlt => absurd hlt h, ?_⟩
    · rintro ⟨e, he⟩
      simp at he
    · rintro a b c rest rfl
      rfl

/-- C6: when the file read fails, `run` propagates exactly the underlying
cause and writes nothing whatsoever to standard output. -/
theorem run_read_failure_no_output (fs : FileSystem) (cfg : Config)
    (e : String) (h : fs cfg.filename = Except.error e) :
    run fs cfg = ([], Except.error e) := by
  unfold run
  rw [h]

/-- C6 witness: a run on a missing file fails with the wrapped cause and
empty output. -/
theorem run_read_failure_no_output_holds :
    run (fun _ => Except.error "No such file or directory")
        (Config.mk ['q'] ['f'] true)
      = ([], Except.error "No such file or directory") :=
  run_read_failure_no_output
    (fun _ => Except.error "No such file or directory")
    (Config.mk ['q'] ['f'] true) "No such file or directory" rfl

/-- C7: when the file read succeeds, `run` prints exactly the results of
the single search variant selected by `case_sensitive`, each line verbatim
followed by one newline, in order, with no additional output, and returns
success (also when the result list is empty). -/
theorem run_success_prints_matches (fs : FileSystem) (cfg : Config)
    (contents : List Char) (h : fs cfg.filename = Except.ok contents) :
    run fs cfg
      = (((if cfg.case_sensitive then search cfg.query contents
            else search_case_insensitive cfg.query contents).map
            (fun line => line ++ ['\n'])).flatten,
         Except.ok ()) := by
  have hr : run fs cfg
      = (printLines (if cfg.case_sensitive then search cfg.query contents
          else search_case_insensitive cfg.query contents),
         Except.ok ()) := by
    unfold run
    rw [h]
  rw [hr, printLines_eq]

/-- C7 witness: a successful case-sensitive run prints its matches
newline-terminated. -/
theorem run_success_prints_matches_holds :
    run (fun _ => Except.ok ['a', '\n', 'b']) (Config.mk ['a'] ['f'] true)
      = (((if (Config.mk ['a'] ['f'] true).case_sensitive then
              search ['a'] ['a', '\n', 'b']
            else search_case_insensitive ['a'] ['a', '\n', 'b']).map
            (fun line => line ++ ['\n'])).flatten,
         Except.ok ()) :=
  run_success_prints_matches (fun _ => Except.ok ['a', '\n', 'b'])
    (Config.mk ['a'] ['f'] true) ['a', '\n', 'b'] rfl

/-- C8: both search functions are pure, deterministic and total: two
invocations on identical inputs yield identical outputs (they are Lean
functions of their arguments alone, defined for all inputs, with no error
conditions and no hidden state). -/
theorem search_functions_deterministic (q1 c1 q2 c2 : List Char)
    (hq : q1 = q2) (hc : c1 = c2) :
    search q1 c1 = search q2 c2
    ∧ search_case_insensitive q1 c1 = search_case_insensitive q2 c2 := by
  subst hq
  subst hc
  exact ⟨rfl, rfl⟩

/-- C8 witness: determinism at a concrete input. -/
theorem search_functions_deterministic_holds :
    search ['a'] ['a', '\n', 'b'] = search ['a'] ['a', '\n', 'b']
    ∧ search_case_insensitive ['a'] ['a', '\n', 'b']
        = search_case_insensitive ['a'] ['a', '\n', 'b'] :=
  search_functions_deterministic ['a'] ['a', '\n', 'b'] ['a'] ['a', '\n', 'b']
    rfl rfl

/-- C9: positional arguments beyond the query and the filename are
silently ignored: appending extra arguments to a list that already has at
least three entries leaves the constructed configuration unchanged. -/
theorem extra_args_ignored (env : Env) (args extra : List (List Char))
    (h : 3 ≤ args.length) :
    Config.new env (args ++ extra) = Config.new env args := by
  unfold Config.new
  have h1 : ¬ args.length < 3 := by omega
  have h2 : ¬ (args ++ extra).length < 3 := by
    rw [List.length_append]
    omega
  rw [if_neg h2, if_neg h1]
  have g1 : (args ++ extra).getD 1 [] = args.getD 1 [] :=
    List.getD_append args extra [] 1 (by omega)
  have g2 : (args ++ extra).getD 2 [] = args.getD 2 [] :=
    List.getD_append args extra [] 2 (by omega)
  rw [g1, g2]

/-- C9 witness: a fourth argument changes nothing. -/
theorem extra_args_ignored_holds :
    Config.new (fun _ => none) ([['p'], ['q'], ['f']] ++ [['x']])
      = Config.new (fun _ => none) [['p'], ['q'], ['f']] :=
  extra_args_ignored (fun _ => none) [['p'], ['q'], ['f']] [['x']] (by decide)

/-- C10 counterexample: a query ending in a carriage return CAN match at
the end of a line coming from carriage-return-newline-terminated contents:
with contents "a\r\r\n" the produced line is "a\r" (only one carriage
return is stripped with the newline), the query "a\r" ends in a carriage
return, and it matches as a suffix of — i.e. at the end of — that line. -/
theorem cr_query_matches_at_line_end :
    search ['a', '\r'] ['a', '\r', '\r', '\n'] = [['a', '\r']]
    ∧ ['a', '\r'] <:+ ['a', '\r']
    ∧ (['a', '\r']).getLast? = some '\r' := by decide

/-- C10 (amended): when a line is terminated by a carriage return
immediately followed by a newline, the produced element omits that
trailing carriage return (one carriage return is stripped together with
the newline); a query ending in a carriage return can nevertheless still
match at end of line, since only one carriage return is removed. -/
theorem crlf_terminator_strips_one_cr (s rest : List Char)
    (h : '\n' ∉ s) :
    linesOf (s ++ '\r' :: '\n' :: rest) = s :: linesOf rest := by
  have hx : '\n' ∉ s ++ ['\r'] := by
    simp only [List.mem_append, List.mem_singleton]
    rintro (hs | he)
    · exact h hs
    · exact absurd he (by decide)
  have hsplit := splitInclusiveNl_append_cons_nl (s ++ ['\r']) rest hx
  have harr : (s ++ ['\r']) ++ '\n' :: rest = s ++ '\r' :: '\n' :: rest := by
    simp [List.append_assoc]
  rw [harr] at hsplit
  unfold linesOf
  rw [hsplit, List.map_cons]
  congr 1
  rw [stripLineEnding_concat_nl]
  simp [stripSuffixChar, List.getLast?_concat, List.dropLast_concat]

/-- C10 witness: the line "a" of contents "a\r\nb" is produced without
the carriage return. -/
theorem crlf_terminator_strips_one_cr_holds :
    linesOf (['a'] ++ '\r' :: '\n' :: ['b']) = ['a'] :: linesOf ['b'] :=
  crlf_terminator_strips_one_cr ['a'] ['b'] (by decide)

end PieGrep
